import Mathlib

/-!
Shallow embedding of `src/video-chunker/chunker.py` (class `VideoChunker`).

Times are modelled as exact rationals (the Python code computes with floats,
but every operation used — addition, subtraction, halving, `min`, comparison —
is exact on the small decimal values involved).  The `while` loops of the
planner are modelled with an explicit fuel parameter: `none` means the loop
had not yet terminated within the given fuel, `some l` means the loop
finished and produced `l`.  `find_cut_points_fixed` genuinely fails to
terminate when the target duration is non-positive, so the fuel is part of
the model and not an artifact.
-/

/-- A silence interval as produced by `detect_silence_fast`: the tuple
`(start, end, duration)`.  `end` is a Lean keyword, so the field is named
`stop`; `dur` is the third tuple component (the code compares candidates by
this field, it is not recomputed from `stop - start`). -/
structure SilencePeriod where
  start : ℚ
  stop : ℚ
  dur : ℚ
deriving DecidableEq

/-- `self.search_window_start = target_duration - 20` from `__init__`. -/
def search_window_start (target : ℚ) : ℚ := target - 20

/-- `self.search_window_end = target_duration + 20` from `__init__`. -/
def search_window_end (target : ℚ) : ℚ := target + 20

/-- The accumulator update shared by the two selection loops: keep the
incumbent unless the new element is strictly better on `key`
(first-encountered tie-break).  With `key := SilencePeriod.dur` this is
literally `if best_silence is None or dur > best_silence[2]` from
lines 197-198. -/
def updateBest {α : Type} (key : α → ℚ) (best : Option α) (p : α) : Option α :=
  match best with
  | none => some p
  | some b => if key b < key p then some p else some b

/-- The `for start, end, dur in silence_periods` selection loop of
`find_cut_points_silence` (lines 195-198): keep the qualifying interval of
maximum `dur`, replacing the current best only on strictly larger `dur`. -/
def bestSilence (ss se : ℚ) (best : Option SilencePeriod) :
    List SilencePeriod → Option SilencePeriod
  | [] => best
  | p :: rest =>
      bestSilence ss se
        (if ss ≤ p.start ∧ p.start ≤ se then updateBest SilencePeriod.dur best p
         else best) rest

/-- The update of the `for scene_time in scene_times` loop (lines 232-237):
replace only on strictly smaller `abs(scene_time - target)` distance
(`best_distance` starts at infinity, so the first qualifying mark always
replaces `None`, and `best_distance` always equals the distance of the kept
mark). -/
def updateBestScene (ideal : ℚ) (best : Option ℚ) (s : ℚ) : Option ℚ :=
  match best with
  | none => some s
  | some b => if |s - ideal| < |b - ideal| then some s else some b

/-- The `for scene_time in scene_times` selection loop of
`find_cut_points_scene` (lines 232-237): keep the qualifying mark of minimum
distance to the ideal timestamp. -/
def bestScene (ss se ideal : ℚ) (best : Option ℚ) : List ℚ → Option ℚ
  | [] => best
  | s :: rest =>
      bestScene ss se ideal
        (if ss ≤ s ∧ s ≤ se then updateBestScene ideal best s else best) rest

/-- One loop-body candidate of `find_cut_points_silence`: the midpoint
`best_silence[0] + (best_silence[1] - best_silence[0]) / 2` when a qualifying
interval exists, else the fallback `min(current_time + target, duration)`. -/
def silenceCandidate (target duration : ℚ) (periods : List SilencePeriod)
    (t : ℚ) : ℚ :=
  match bestSilence (t + search_window_start target)
      (min (t + search_window_end target) duration) none periods with
  | some b => b.start + (b.stop - b.start) / 2
  | none => min (t + target) duration

/-- One loop-body candidate of `find_cut_points_scene`.  The source tests the
found mark with `if best_scene:`, which is Python truthiness: a mark equal to
`0.0` is treated exactly like `None`, so the fallback fires for it. -/
def sceneCandidate (target duration : ℚ) (scenes : List ℚ) (t : ℚ) : ℚ :=
  match bestScene (t + search_window_start target)
      (min (t + search_window_end target) duration) (t + target) none scenes with
  | some b => if b = 0 then min (t + target) duration else b
  | none => min (t + target) duration

/-- The shared `while current_time < duration` skeleton of the silence and
scene planners (lines 190-209 and 224-248): compute the candidate cut for the
current time, append it and advance when `cut_point > current_time and
cut_point < duration`, otherwise break.  Returns the cuts appended by the
loop (the leading `0` is added by the caller). -/
def windowLoop (duration : ℚ) (cand : ℚ → ℚ) : ℚ → ℕ → Option (List ℚ)
  | _, 0 => none
  | t, fuel + 1 =>
      if t < duration then
        if t < cand t ∧ cand t < duration then
          (windowLoop duration cand (cand t) fuel).map (fun l => cand t :: l)
        else some []
      else some []

/-- The `while current < duration` loop of `find_cut_points_fixed`
(lines 176-181): append `current`, advance by `target_duration`. -/
def fixedLoop (target duration : ℚ) : ℚ → ℕ → Option (List ℚ)
  | _, 0 => none
  | current, fuel + 1 =>
      if current < duration then
        (fixedLoop target duration (current + target) fuel).map
          (fun l => current :: l)
      else some []

/-- `find_cut_points_fixed` (lines 174-181). -/
def find_cut_points_fixed (target duration : ℚ) (fuel : ℕ) :
    Option (List ℚ) :=
  fixedLoop target duration 0 fuel

/-- `find_cut_points_silence` (lines 183-211), with the detected silence
periods passed in as data (`detect_silence_fast` is a backend media scan
performed outside the planner).  `cut_points = [0]` before the loop. -/
def find_cut_points_silence (target : ℚ) (periods : List SilencePeriod)
    (duration : ℚ) (fuel : ℕ) : Option (List ℚ) :=
  (windowLoop duration (silenceCandidate target duration periods) 0 fuel).map
    (fun l => 0 :: l)

/-- `find_cut_points_scene` (lines 213-250): `if not scene_times:` falls back
to the fixed planner for the whole file, else runs the windowed loop seeded
with `cut_points = [0]`. -/
def find_cut_points_scene (target : ℚ) (scenes : List ℚ) (duration : ℚ)
    (fuel : ℕ) : Option (List ℚ) :=
  if scenes.isEmpty then find_cut_points_fixed target duration fuel
  else
    (windowLoop duration (sceneCandidate target duration scenes) 0 fuel).map
      (fun l => 0 :: l)

/-- `find_cut_points_smart` (lines 252-270): scene strategy when the loose
scan found at least 3 marks, else silence strategy when at least 2 silence
periods, else fixed.  `scenesLoose` is the threshold-0.3 scan used only for
the count; `scenes` is the threshold-0.4 scan the scene planner re-runs. -/
def find_cut_points_smart (target : ℚ) (scenesLoose scenes : List ℚ)
    (periods : List SilencePeriod) (duration : ℚ) (fuel : ℕ) :
    Option (List ℚ) :=
  if 3 ≤ scenesLoose.length then find_cut_points_scene target scenes duration fuel
  else if 2 ≤ periods.length then find_cut_points_silence target periods duration fuel
  else find_cut_points_fixed target duration fuel

/-- The strategy strings accepted by the CLI (`--strategy` choices). -/
inductive Strategy where
  | fixed
  | scene
  | smart
  | silence
deriving DecidableEq

/-- `find_cut_points` (lines 272-283): dispatch on `self.strategy`; any
string other than `fixed`, `scene`, `smart` takes the `else` branch, which is
the silence planner. -/
def find_cut_points (strategy : Strategy) (target : ℚ)
    (scenesLoose scenes : List ℚ) (periods : List SilencePeriod)
    (duration : ℚ) (fuel : ℕ) : Option (List ℚ) :=
  match strategy with
  | .fixed => find_cut_points_fixed target duration fuel
  | .scene => find_cut_points_scene target scenes duration fuel
  | .smart => find_cut_points_smart target scenesLoose scenes periods duration fuel
  | .silence => find_cut_points_silence target periods duration fuel

/-- The `--vertical` choices. -/
inductive VerticalFormat where
  | blur
  | crop
  | pad
  | none
deriving DecidableEq

/-- The filter strings produced by `get_vertical_filter`, kept as structured
descriptors carrying exactly the numbers interpolated into the string. -/
inductive VerticalFilter where
  | cropFilter (target_width input_height x_offset out_width out_height : ℤ)
  | padFilter (out_width scaled_height y_offset out_height : ℤ)
  | blurFilter (out_width out_height scaled_height y_offset : ℤ)
deriving DecidableEq

/-- `get_vertical_filter` (lines 66-114).  Python `int(x)` on the
non-negative float quotients here is the floor, and `//` is floor division
(also on negative operands), both modelled by `Int.fdiv`. -/
def get_vertical_filter (fmt : VerticalFormat)
    (input_width input_height out_width out_height : ℤ) :
    Option VerticalFilter :=
  match fmt with
  | .none => Option.none
  | .crop =>
      let target_width := Int.fdiv (input_height * out_width) out_height
      let x_offset := Int.fdiv (input_width - target_width) 2
      some (.cropFilter target_width input_height x_offset out_width out_height)
  | .pad =>
      let scaled_height := Int.fdiv (input_height * out_width) input_width
      let y_offset := Int.fdiv (out_height - scaled_height) 2
      some (.padFilter out_width scaled_height y_offset out_height)
  | .blur =>
      let scaled_height := Int.fdiv (input_height * out_width) input_width
      let y_offset := Int.fdiv (out_height - scaled_height) 2
      some (.blurFilter out_width out_height scaled_height y_offset)

/-- The two ways `create_chunk` builds the ffmpeg command. -/
inductive CodecPolicy where
  | copy
  | transcode
deriving DecidableEq

/-- `needs_reencode = self.re_encode or self.vertical_format != "none"`
(line 295). -/
def needs_reencode (re_encode : Bool) (fmt : VerticalFormat) : Bool :=
  re_encode || decide (fmt ≠ VerticalFormat.none)

/-- The codec arm chosen by `create_chunk` (lines 297-327): transcode when
`needs_reencode`, else `-c copy`. -/
def chunkCodecPolicy (re_encode : Bool) (fmt : VerticalFormat) : CodecPolicy :=
  if needs_reencode re_encode fmt then .transcode else .copy

/-- Qualifying silence intervals at current time `t`: those whose `start`
lies in the search window, in input order. -/
def qualifyingSilence (target duration : ℚ) (periods : List SilencePeriod)
    (t : ℚ) : List SilencePeriod :=
  periods.filter fun p =>
    decide (t + search_window_start target ≤ p.start ∧
      p.start ≤ min (t + search_window_end target) duration)

/-- Qualifying scene marks at current time `t`. -/
def qualifyingScene (target duration : ℚ) (scenes : List ℚ) (t : ℚ) :
    List ℚ :=
  scenes.filter fun s =>
    decide (t + search_window_start target ≤ s ∧
      s ≤ min (t + search_window_end target) duration)

/-- `b` is the element of `l` that a first-encountered tie-break argmax on
`key` selects: everything before it is strictly smaller, everything after it
is no larger. -/
def IsFirstBest {α : Type} (key : α → ℚ) (l : List α) (b : α) : Prop :=
  ∃ l1 l2, l = l1 ++ b :: l2 ∧ (∀ x ∈ l1, key x < key b) ∧
    ∀ x ∈ l2, key x ≤ key b

/-- `b` is the qualifying scene mark of minimum distance to `ideal`,
first-encountered tie-break. -/
def IsFirstMinDist (ideal : ℚ) (l : List ℚ) (b : ℚ) : Prop :=
  ∃ l1 l2, l = l1 ++ b :: l2 ∧ (∀ x ∈ l1, |b - ideal| < |x - ideal|) ∧
    ∀ x ∈ l2, |b - ideal| ≤ |x - ideal|

/-- The window-filtered fold, with the filtering factored out: used to relate
the interleaved source loops to a pure argmax fold. -/
def foldBest {α : Type} (key : α → ℚ) : Option α → List α → Option α
  | best, [] => best
  | best, p :: rest => foldBest key (updateBest key best p) rest

theorem isFirstBest_head_le {α : Type} (key : α → ℚ) (p : α) (rest : List α)
    (b : α) (h : IsFirstBest key (p :: rest) b) : key p ≤ key b := by
  obtain ⟨l1, l2, hd, hlt, _⟩ := h
  cases l1 with
  | nil =>
      obtain ⟨rfl, -⟩ := List.cons.inj hd
      exact le_refl _
  | cons q l1 =>
      obtain ⟨rfl, -⟩ := List.cons.inj hd
      exact le_of_lt (hlt p (List.mem_cons_self _ _))

theorem foldBest_some {α : Type} (key : α → ℚ) :
    ∀ (l : List α) (b0 : α), ∃ b, foldBest key (some b0) l = some b ∧
      IsFirstBest key (b0 :: l) b := by
  intro l
  induction l with
  | nil =>
      intro b0
      exact ⟨b0, rfl, [], [], rfl, by simp, by simp⟩
  | cons p rest ih =>
      intro b0
      by_cases h : key b0 < key p
      · obtain ⟨b, hb, hfb⟩ := ih p
        have hpb : key p ≤ key b := isFirstBest_head_le key p rest b hfb
        obtain ⟨l1, l2, hd, hlt, hle⟩ := hfb
        refine ⟨b, ?_, b0 :: l1, l2, ?_, ?_, hle⟩
        · show foldBest key (updateBest key (some b0) p) rest = some b
          rw [show updateBest key (some b0) p = some p from if_pos h]
          exact hb
        · rw [List.cons_append, ← hd]
        · intro x hx
          rcases List.mem_cons.mp hx with rfl | hx
          · exact lt_of_lt_of_le h hpb
          · exact hlt x hx
      · obtain ⟨b, hb, hfb⟩ := ih b0
        have hstep : foldBest key (some b0) (p :: rest) = foldBest key (some b0) rest := by
          show foldBest key (updateBest key (some b0) p) rest = _
          rw [show updateBest key (some b0) p = some b0 from if_neg h]
        have hres : foldBest key (some b0) (p :: rest) = some b := by
          rw [hstep]; exact hb
        obtain ⟨l1, l2, hd, hlt, hle⟩ := hfb
        cases l1 with
        | nil =>
            rw [List.nil_append] at hd
            obtain ⟨hb0, hrest⟩ := List.cons.inj hd
            refine ⟨b, hres, [], p :: l2, ?_, by simp, ?_⟩
            · rw [List.nil_append, hb0, hrest]
            · intro x hx
              rcases List.mem_cons.mp hx with rfl | hx
              · rw [← hb0]; exact not_lt.mp h
              · exact hle x hx
        | cons q l1 =>
            obtain ⟨hq, hrest⟩ := List.cons.inj hd
            have hb0b : key b0 < key b := by
              rw [hq]; exact hlt q (List.mem_cons_self _ _)
            refine ⟨b, hres, b0 :: p :: l1, l2, ?_, ?_, hle⟩
            · rw [hrest]; simp [List.cons_append]
            · intro x hx
              rcases List.mem_cons.mp hx with rfl | hx
              · exact hb0b
              · rcases List.mem_cons.mp hx with rfl | hx
                · exact lt_of_le_of_lt (not_lt.mp h) hb0b
                · exact hlt x (List.mem_cons_of_mem _ hx)

theorem foldBest_none {α : Type} (key : α → ℚ) (l : List α) :
    (l = [] ∧ foldBest key none l = none) ∨
      ∃ b, foldBest key none l = some b ∧ IsFirstBest key l b := by
  cases l with
  | nil => exact Or.inl ⟨rfl, rfl⟩
  | cons p rest =>
      obtain ⟨b, hb, hfb⟩ := foldBest_some key rest p
      exact Or.inr ⟨b, hb, hfb⟩

theorem bestSilence_eq_foldBest (ss se : ℚ) :
    ∀ (l : List SilencePeriod) (best : Option SilencePeriod),
      bestSilence ss se best l =
        foldBest SilencePeriod.dur best
          (l.filter fun p => decide (ss ≤ p.start ∧ p.start ≤ se)) := by
  intro l
  induction l with
  | nil => intro best; rfl
  | cons p rest ih =>
      intro best
      by_cases h : ss ≤ p.start ∧ p.start ≤ se
      · rw [show bestSilence ss se best (p :: rest) =
              bestSilence ss se (updateBest SilencePeriod.dur best p) rest by
            simp [bestSilence, if_pos h],
          ih, List.filter_cons, if_pos (by simpa using h)]
        rfl
      · rw [show bestSilence ss se best (p :: rest) = bestSilence ss se best rest by
            simp [bestSilence, if_neg h],
          ih, List.filter_cons, if_neg (by simpa using h)]

theorem updateBestScene_eq (ideal : ℚ) (best : Option ℚ) (s : ℚ) :
    updateBestScene ideal best s = updateBest (fun x => -|x - ideal|) best s := by
  cases best with
  | none => rfl
  | some b =>
      show (if |s - ideal| < |b - ideal| then some s else some b) =
        if -|b - ideal| < -|s - ideal| then some s else some b
      rw [if_congr (Iff.symm neg_lt_neg_iff) rfl rfl]

theorem bestScene_eq_foldBest (ss se ideal : ℚ) :
    ∀ (l : List ℚ) (best : Option ℚ),
      bestScene ss se ideal best l =
        foldBest (fun x => -|x - ideal|) best
          (l.filter fun s => decide (ss ≤ s ∧ s ≤ se)) := by
  intro l
  induction l with
  | nil => intro best; rfl
  | cons s rest ih =>
      intro best
      by_cases h : ss ≤ s ∧ s ≤ se
      · rw [show bestScene ss se ideal best (s :: rest) =
              bestScene ss se ideal (updateBestScene ideal best s) rest by
            simp [bestScene, if_pos h],
          ih, List.filter_cons, if_pos (by simpa using h), updateBestScene_eq]
        rfl
      · rw [show bestScene ss se ideal best (s :: rest) = bestScene ss se ideal best rest by
            simp [bestScene, if_neg h],
          ih, List.filter_cons, if_neg (by simpa using h)]

theorem isFirstMinDist_of_isFirstBest (ideal : ℚ) (l : List ℚ) (b : ℚ)
    (h : IsFirstBest (fun x => -|x - ideal|) l b) : IsFirstMinDist ideal l b := by
  obtain ⟨l1, l2, hd, hlt, hle⟩ := h
  refine ⟨l1, l2, hd, ?_, ?_⟩
  · intro x hx
    exact neg_lt_neg_iff.mp (hlt x hx)
  · intro x hx
    exact neg_le_neg_iff.mp (hle x hx)

theorem chain_mem_of_rel {R : ℚ → ℚ → Prop} {Q : ℚ → Prop}
    (H : ∀ a b, R a b → Q b) :
    ∀ (t : ℚ) (l : List ℚ), List.Chain R t l → ∀ x ∈ l, Q x := by
  intro t l
  induction l generalizing t with
  | nil => intro _ x hx; cases hx
  | cons c l ih =>
      intro h x hx
      rw [List.chain_cons] at h
      rcases List.mem_cons.mp hx with rfl | hx
      · exact H t x h.1
      · exact ih c h.2 x hx

theorem windowLoop_chain (duration : ℚ) (cand : ℚ → ℚ) :
    ∀ (fuel : ℕ) (t : ℚ) (l : List ℚ), windowLoop duration cand t fuel = some l →
      List.Chain (fun p c => c = cand p ∧ p < c ∧ c < duration) t l := by
  intro fuel
  induction fuel with
  | zero => intro t l h; cases h
  | succ n ih =>
      intro t l h
      simp only [windowLoop] at h
      by_cases h1 : t < duration
      · rw [if_pos h1] at h
        by_cases h2 : t < cand t ∧ cand t < duration
        · rw [if_pos h2] at h
          rcases Option.map_eq_some'.mp h with ⟨l', hl', hcons⟩
          rw [← hcons]
          exact List.Chain.cons ⟨rfl, h2⟩ (ih (cand t) l' hl')
        · rw [if_neg h2] at h
          cases h
          exact List.Chain.nil
      · rw [if_neg h1] at h
        cases h
        exact List.Chain.nil

theorem windowLoop_mono (duration : ℚ) (cand : ℚ → ℚ) :
    ∀ (fuel fuel' : ℕ) (t : ℚ) (l : List ℚ), fuel ≤ fuel' →
      windowLoop duration cand t fuel = some l →
      windowLoop duration cand t fuel' = some l := by
  intro fuel
  induction fuel with
  | zero => intro _ t l _ h; cases h
  | succ n ih =>
      intro fuel' t l hle h
      obtain ⟨m, rfl⟩ : ∃ m, fuel' = m + 1 := ⟨fuel' - 1, by omega⟩
      have hm : n ≤ m := by omega
      simp only [windowLoop] at h ⊢
      by_cases h1 : t < duration
      · rw [if_pos h1] at h ⊢
        by_cases h2 : t < cand t ∧ cand t < duration
        · rw [if_pos h2] at h ⊢
          rcases Option.map_eq_some'.mp h with ⟨l', hl', hcons⟩
          rw [ih m (cand t) l' hm hl']
          rw [← hcons]
          rfl
        · rw [if_neg h2] at h ⊢; exact h
      · rw [if_neg h1] at h ⊢; exact h

theorem fixedLoop_spec (target duration : ℚ) :
    ∀ (fuel : ℕ) (c : ℚ) (l : List ℚ), fixedLoop target duration c fuel = some l →
      (c < duration → l.head? = some c) ∧ (duration ≤ c → l = []) ∧
      (∀ x ∈ l, x < duration) ∧
      List.Chain' (fun p q => q = p + target ∧ q < duration) l := by
  intro fuel
  induction fuel with
  | zero => intro c l h; cases h
  | succ n ih =>
      intro c l h
      simp only [fixedLoop] at h
      by_cases h1 : c < duration
      · rw [if_pos h1] at h
        rcases Option.map_eq_some'.mp h with ⟨l', hl', hcons⟩
        obtain ⟨hh, he, hb, hc⟩ := ih (c + target) l' hl'
        rw [← hcons]
        refine ⟨fun _ => rfl, fun hd => absurd h1 (not_lt.mpr hd), ?_, ?_⟩
        · intro x hx
          rcases List.mem_cons.mp hx with rfl | hx
          · exact h1
          · exact hb x hx
        · rw [List.chain'_cons']
          refine ⟨?_, hc⟩
          intro y hy
          by_cases h2 : c + target < duration
          · rw [hh h2] at hy
            have hy' : c + target = y := Option.some.inj (Option.mem_def.mp hy)
            rw [← hy']
            exact ⟨rfl, h2⟩
          · rw [he (not_lt.mp h2)] at hy
            cases hy
      · rw [if_neg h1] at h
        cases h
        exact ⟨fun hc' => absurd hc' h1, fun _ => rfl, by simp, trivial⟩

theorem fixedLoop_none_of_nonpos (target duration : ℚ) (hT : target ≤ 0) :
    ∀ (fuel : ℕ) (c : ℚ), c < duration → fixedLoop target duration c fuel = none := by
  intro fuel
  induction fuel with
  | zero => intro c _; rfl
  | succ n ih =>
      intro c hc
      simp only [fixedLoop]
      rw [if_pos hc, ih (c + target) (by linarith)]
      rfl

theorem bestSilence_of_empty_window (ss se : ℚ) (h : se < ss) :
    ∀ (l : List SilencePeriod) (best : Option SilencePeriod),
      bestSilence ss se best l = best := by
  intro l
  induction l with
  | nil => intro best; rfl
  | cons p rest ih =>
      intro best
      show bestSilence ss se (if ss ≤ p.start ∧ p.start ≤ se then _ else best) rest = best
      rw [if_neg, ih]
      rintro ⟨h1, h2⟩
      exact absurd (le_trans h1 h2) (not_le.mpr h)

theorem bestScene_of_empty_window (ss se ideal : ℚ) (h : se < ss) :
    ∀ (l : List ℚ) (best : Option ℚ), bestScene ss se ideal best l = best := by
  intro l
  induction l with
  | nil => intro best; rfl
  | cons s rest ih =>
      intro best
      show bestScene ss se ideal (if ss ≤ s ∧ s ≤ se then _ else best) rest = best
      rw [if_neg, ih]
      rintro ⟨h1, h2⟩
      exact absurd (le_trans h1 h2) (not_le.mpr h)

theorem silenceCandidate_spec (target duration : ℚ) (periods : List SilencePeriod)
    (t : ℚ) :
    (qualifyingSilence target duration periods t = [] ∧
      silenceCandidate target duration periods t = min (t + target) duration) ∨
    ∃ b, IsFirstBest SilencePeriod.dur (qualifyingSilence target duration periods t) b ∧
      silenceCandidate target duration periods t = b.start + (b.stop - b.start) / 2 := by
  have hfold : bestSilence (t + search_window_start target)
      (min (t + search_window_end target) duration) none periods =
      foldBest SilencePeriod.dur none (qualifyingSilence target duration periods t) :=
    bestSilence_eq_foldBest _ _ periods none
  rcases foldBest_none SilencePeriod.dur (qualifyingSilence target duration periods t) with
    ⟨hnil, hres⟩ | ⟨b, hres, hfb⟩
  · left
    refine ⟨hnil, ?_⟩
    unfold silenceCandidate
    rw [hfold, hres]
  · right
    refine ⟨b, hfb, ?_⟩
    unfold silenceCandidate
    rw [hfold, hres]

theorem sceneCandidate_spec (target duration : ℚ) (scenes : List ℚ) (t : ℚ) :
    (qualifyingScene target duration scenes t = [] ∧
      sceneCandidate target duration scenes t = min (t + target) duration) ∨
    ∃ b, IsFirstMinDist (t + target) (qualifyingScene target duration scenes t) b ∧
      ((b ≠ 0 ∧ sceneCandidate target duration scenes t = b) ∨
        (b = 0 ∧ sceneCandidate target duration scenes t = min (t + target) duration)) := by
  have hfold : bestScene (t + search_window_start target)
      (min (t + search_window_end target) duration) (t + target) none scenes =
      foldBest (fun x => -|x - (t + target)|) none
        (qualifyingScene target duration scenes t) :=
    bestScene_eq_foldBest _ _ _ scenes none
  rcases foldBest_none (fun x => -|x - (t + target)|)
      (qualifyingScene target duration scenes t) with
    ⟨hnil, hres⟩ | ⟨b, hres, hfb⟩
  · left
    refine ⟨hnil, ?_⟩
    unfold sceneCandidate
    rw [hfold, hres]
  · right
    refine ⟨b, isFirstMinDist_of_isFirstBest _ _ _ hfb, ?_⟩
    by_cases hb0 : b = 0
    · right
      refine ⟨hb0, ?_⟩
      unfold sceneCandidate
      rw [hfold, hres]
      simp [hb0]
    · left
      refine ⟨hb0, ?_⟩
      unfold sceneCandidate
      rw [hfold, hres]
      simp [hb0]

theorem event_run_invariants (duration : ℚ) (cand : ℚ → ℚ) (fuel : ℕ)
    (cps : List ℚ) (hD : 0 < duration)
    (h : (windowLoop duration cand 0 fuel).map (fun l => (0 : ℚ) :: l) = some cps) :
    cps ≠ [] ∧ cps.head? = some 0 ∧ List.Chain' (· < ·) cps ∧
      ∀ x ∈ cps, x < duration := by
  rcases Option.map_eq_some'.mp h with ⟨l, hl, hcons⟩
  rw [← hcons]
  have hchain := windowLoop_chain duration cand fuel 0 l hl
  refine ⟨by simp, by simp, ?_, ?_⟩
  · show List.Chain (· < ·) 0 l
    exact hchain.imp fun a b hab => hab.2.1
  · intro x hx
    rcases List.mem_cons.mp hx with rfl | hx
    · exact hD
    · exact chain_mem_of_rel (fun a b hab => hab.2.2) 0 l hchain x hx

theorem fixed_run_invariants (target duration : ℚ) (fuel : ℕ) (cps : List ℚ)
    (hD : 0 < duration) (h : find_cut_points_fixed target duration fuel = some cps) :
    cps ≠ [] ∧ cps.head? = some 0 ∧ List.Chain' (· < ·) cps ∧
      ∀ x ∈ cps, x < duration := by
  rcases lt_or_le 0 target with hT | hT
  · obtain ⟨hh, _, hb, hc⟩ := fixedLoop_spec target duration fuel 0 cps h
    have hh0 := hh hD
    refine ⟨?_, hh0, ?_, hb⟩
    · intro hnil
      rw [hnil] at hh0
      cases hh0
    · refine hc.imp fun a b hab => ?_
      rw [hab.1]
      linarith
  · exfalso
    rw [find_cut_points_fixed,
      fixedLoop_none_of_nonpos target duration hT fuel 0 hD] at h
    cases h

/-- C1: for the silence strategy, at every step with current time `t` the
planner picks, among the silence intervals whose start lies in
`[t + target - 20, min (t + target + 20) duration]`, the one of maximum
duration with first-encountered tie-break, and emits its midpoint
`start + (end - start) / 2`, falling back to `min (t + target) duration`
when none qualifies; consequently every consecutive pair of emitted cut
points is either a fallback step or the midpoint of an input silence
interval whose start lies within `[prev + target - 20, prev + target + 20]`
(the search window of the code is fixed at ±20 seconds). -/
theorem C1_silence_selection (target duration : ℚ) (periods : List SilencePeriod) :
    (∀ t : ℚ,
      (qualifyingSilence target duration periods t = [] ∧
        silenceCandidate target duration periods t = min (t + target) duration) ∨
      ∃ b, IsFirstBest SilencePeriod.dur (qualifyingSilence target duration periods t) b ∧
        silenceCandidate target duration periods t = b.start + (b.stop - b.start) / 2) ∧
    ∀ (fuel : ℕ) (cps : List ℚ),
      find_cut_points_silence target periods duration fuel = some cps →
      List.Chain' (fun p c =>
        c = min (p + target) duration ∨
        ∃ b ∈ periods, (p + target - 20 ≤ b.start ∧ b.start ≤ p + target + 20) ∧
          c = b.start + (b.stop - b.start) / 2) cps := by
  constructor
  · exact silenceCandidate_spec target duration periods
  · intro fuel cps h
    unfold find_cut_points_silence at h
    rcases Option.map_eq_some'.mp h with ⟨l, hl, hcons⟩
    rw [← hcons]
    show List.Chain _ 0 l
    refine (windowLoop_chain duration _ fuel 0 l hl).imp ?_
    rintro p c ⟨hc, -, -⟩
    rcases silenceCandidate_spec target duration periods p with ⟨-, hq⟩ | ⟨b, hfb, hq⟩
    · left
      rw [hc, hq]
    · right
      obtain ⟨l1, l2, hd, -, -⟩ := hfb
      have hbmem : b ∈ qualifyingSilence target duration periods p := by
        rw [hd]
        exact List.mem_append_right _ (List.mem_cons_self _ _)
      rw [qualifyingSilence, List.mem_filter] at hbmem
      obtain ⟨hbm, hcond⟩ := hbmem
      have hcond' := of_decide_eq_true hcond
      refine ⟨b, hbm, ⟨?_, ?_⟩, by rw [hc, hq]⟩
      · have h1 := hcond'.1
        rw [search_window_start] at h1
        linarith
      · have h2 := le_trans hcond'.2 (min_le_left _ _)
        rw [search_window_end] at h2
        linarith

/-- C1 witness: the concrete run of the silence planner with
`duration = 300`, `target = 120` and the two intervals of the spec's
scenario, together with the pairwise property instantiated on its output. -/
theorem C1_witness :
    find_cut_points_silence 120 [⟨115, 116, 1⟩, ⟨235, 237, 2⟩] 300 10 =
      some [0, 115.5, 236] ∧
    List.Chain' (fun p c =>
      c = min (p + 120) 300 ∨
      ∃ b ∈ [SilencePeriod.mk 115 116 1, SilencePeriod.mk 235 237 2],
        (p + 120 - 20 ≤ b.start ∧ b.start ≤ p + 120 + 20) ∧
        c = b.start + (b.stop - b.start) / 2) [0, 115.5, 236] := by
  have heval : find_cut_points_silence 120 [⟨115, 116, 1⟩, ⟨235, 237, 2⟩] 300 10 =
      some [0, 115.5, 236] := by
    norm_num [find_cut_points_silence, windowLoop, silenceCandidate, bestSilence,
      updateBest, search_window_start, search_window_end]
  exact ⟨heval, (C1_silence_selection 120 300 _).2 10 _ heval⟩

/-- C2 counterexample: with total duration `0` the claim fails on two
independent conjuncts.  The fixed strategy returns the empty cut-point
sequence, which has no first element and length `0 < 1`; and the silence
strategy returns `[0]`, whose (first and last) element `0` is not strictly
less than the total duration `0`. -/
theorem C2_counterexample :
    (find_cut_points Strategy.fixed 120 [] [] [] 0 5 = some [] ∧
      (([] : List ℚ)).length < 1) ∧
    (find_cut_points Strategy.silence 120 [] [] [] 0 5 = some [0] ∧
      ¬ ((0 : ℚ) < 0)) := by
  refine ⟨⟨?_, by simp⟩, ⟨?_, by norm_num⟩⟩
  · norm_num [find_cut_points, find_cut_points_fixed, fixedLoop]
  · norm_num [find_cut_points, find_cut_points_silence, windowLoop]

/-- C2 amended: for every strategy and every total duration `D > 0`, any
cut-point sequence the planner returns is strictly increasing, starts at
`0`, has every element strictly below `D`, and is non-empty. -/
theorem C2_cut_point_invariants (strategy : Strategy) (target : ℚ)
    (scenesLoose scenes : List ℚ) (periods : List SilencePeriod)
    (duration : ℚ) (fuel : ℕ) (cps : List ℚ) (hD : 0 < duration)
    (h : find_cut_points strategy target scenesLoose scenes periods duration fuel =
      some cps) :
    cps ≠ [] ∧ cps.head? = some 0 ∧ List.Chain' (· < ·) cps ∧
      ∀ x ∈ cps, x < duration := by
  cases strategy with
  | fixed => exact fixed_run_invariants target duration fuel cps hD h
  | silence => exact event_run_invariants duration _ fuel cps hD h
  | scene =>
      cases scenes with
      | nil => exact fixed_run_invariants target duration fuel cps hD h
      | cons s rest =>
          simp only [find_cut_points, find_cut_points_scene, List.isEmpty_cons,
            Bool.false_eq_true, if_false] at h
          exact event_run_invariants duration _ fuel cps hD h
  | smart =>
      simp only [find_cut_points, find_cut_points_smart] at h
      by_cases h3 : 3 ≤ scenesLoose.length
      · rw [if_pos h3] at h
        cases scenes with
        | nil => exact fixed_run_invariants target duration fuel cps hD h
        | cons s rest =>
            simp only [find_cut_points_scene, List.isEmpty_cons,
              Bool.false_eq_true, if_false] at h
            exact event_run_invariants duration _ fuel cps hD h
      · rw [if_neg h3] at h
        by_cases h2 : 2 ≤ periods.length
        · rw [if_pos h2] at h
          exact event_run_invariants duration _ fuel cps hD h
        · rw [if_neg h2] at h
          exact fixed_run_invariants target duration fuel cps hD h

/-- C2 witness: the invariants instantiated on the concrete fixed-strategy
run with duration `300` and target `120`. -/
theorem C2_witness :
    ([0, 120, 240] : List ℚ) ≠ [] ∧
    ([0, 120, 240] : List ℚ).head? = some 0 ∧
    List.Chain' (· < ·) ([0, 120, 240] : List ℚ) ∧
    ∀ x ∈ ([0, 120, 240] : List ℚ), x < 300 := by
  have heval : find_cut_points Strategy.fixed 120 [] [] [] 300 5 =
      some [0, 120, 240] := by
    norm_num [find_cut_points, find_cut_points_fixed, fixedLoop]
  exact C2_cut_point_invariants Strategy.fixed 120 [] [] [] 300 5 [0, 120, 240]
    (by norm_num) heval

theorem windowRun_trivial (duration : ℚ) (cand : ℚ → ℚ) (hD : 0 < duration)
    (hcand : cand 0 = duration) (fuel : ℕ) :
    (windowLoop duration cand 0 (fuel + 1)).map (fun l => (0 : ℚ) :: l) =
      some [0] := by
  simp only [windowLoop]
  rw [if_pos hD, if_neg]
  · rfl
  · rintro ⟨-, h2⟩
    rw [hcand] at h2
    exact lt_irrefl _ h2

theorem silenceCandidate_zero_far (target duration : ℚ)
    (periods : List SilencePeriod) (hDT : duration ≤ target)
    (hfar : duration < target - 20) :
    silenceCandidate target duration periods 0 = duration := by
  unfold silenceCandidate
  rw [bestSilence_of_empty_window _ _ ?_ periods none]
  · rw [zero_add, min_eq_right hDT]
  · rw [search_window_start]
    have hmin := min_le_right (0 + search_window_end target) duration
    linarith

theorem sceneCandidate_zero_far (target duration : ℚ) (scenes : List ℚ)
    (hDT : duration ≤ target) (hfar : duration < target - 20) :
    sceneCandidate target duration scenes 0 = duration := by
  unfold sceneCandidate
  rw [bestScene_of_empty_window _ _ _ ?_ scenes none]
  · rw [zero_add, min_eq_right hDT]
  · rw [search_window_start]
    have hmin := min_le_right (0 + search_window_end target) duration
    linarith

theorem fixed_trivial (target duration : ℚ) (hD : 0 < duration)
    (hDT : duration ≤ target) (fuel : ℕ) :
    find_cut_points_fixed target duration (fuel + 2) = some [0] := by
  show fixedLoop target duration 0 (fuel + 1 + 1) = some [0]
  simp only [fixedLoop]
  rw [if_pos hD, if_neg (by rw [zero_add]; exact not_lt.mpr hDT)]
  rfl

/-- C3 counterexample: with `duration = target = 100` (so `D ≤ T`) and one
silence interval starting at `90`, the silence strategy returns
`[0, 90.5]`, not `[0]`: the search window `[80, 100]` still reaches below
the end of the file. -/
theorem C3_counterexample :
    (100 : ℚ) ≤ 100 ∧
    find_cut_points Strategy.silence 100 [] [] [⟨90, 91, 1⟩] 100 5 =
      some [0, 90.5] ∧
    find_cut_points Strategy.silence 100 [] [] [⟨90, 91, 1⟩] 100 5 ≠
      some [0] := by
  have heval : find_cut_points Strategy.silence 100 [] [] [⟨90, 91, 1⟩] 100 5 =
      some [0, 90.5] := by
    norm_num [find_cut_points, find_cut_points_silence, windowLoop,
      silenceCandidate, bestSilence, updateBest, search_window_start,
      search_window_end]
  refine ⟨le_refl _, heval, ?_⟩
  rw [heval]
  simp

/-- C3 amended: for `0 < D ≤ T` the fixed strategy returns exactly `[0]`;
the silence, scene and smart strategies are guaranteed to return `[0]` for
any detection signals whenever additionally `D < T - 20` (window below the
file end), while for `T - 20 ≤ D ≤ T` a detected event starting in
`[T - 20, D]` may produce one extra cut point. -/
theorem C3_single_chunk (strategy : Strategy) (target duration : ℚ)
    (scenesLoose scenes : List ℚ) (periods : List SilencePeriod)
    (hD : 0 < duration) (hDT : duration ≤ target) :
    (∀ fuel : ℕ,
      find_cut_points Strategy.fixed target scenesLoose scenes periods duration
        (fuel + 2) = some [0]) ∧
    (duration < target - 20 → ∀ fuel : ℕ,
      find_cut_points strategy target scenesLoose scenes periods duration
        (fuel + 2) = some [0]) := by
  have hfix : ∀ fuel : ℕ,
      find_cut_points_fixed target duration (fuel + 2) = some [0] :=
    fixed_trivial target duration hD hDT
  constructor
  · intro fuel
    exact hfix fuel
  · intro hfar fuel
    have hsil : find_cut_points_silence target periods duration (fuel + 2) =
        some [0] := by
      unfold find_cut_points_silence
      exact windowRun_trivial duration _ hD
        (silenceCandidate_zero_far target duration periods hDT hfar) (fuel + 1)
    have hsc : find_cut_points_scene target scenes duration (fuel + 2) =
        some [0] := by
      cases scenes with
      | nil => exact hfix fuel
      | cons s rest =>
          simp only [find_cut_points_scene, List.isEmpty_cons,
            Bool.false_eq_true, if_false]
          exact windowRun_trivial duration _ hD
            (sceneCandidate_zero_far target duration (s :: rest) hDT hfar) (fuel + 1)
    cases strategy with
    | fixed => exact hfix fuel
    | silence => exact hsil
    | scene => exact hsc
    | smart =>
        simp only [find_cut_points, find_cut_points_smart]
        by_cases h3 : 3 ≤ scenesLoose.length
        · rw [if_pos h3]; exact hsc
        · rw [if_neg h3]
          by_cases h2 : 2 ≤ periods.length
          · rw [if_pos h2]; exact hsil
          · rw [if_neg h2]; exact hfix fuel

/-- C3 witness: the amended statement applied at `target = 120`,
`duration = 50` (so `50 < 100 = target - 20`), scene strategy with one mark
and the fixed strategy. -/
theorem C3_witness :
    find_cut_points Strategy.fixed 120 [] [10] [] 50 2 = some [0] ∧
    find_cut_points Strategy.scene 120 [] [10] [] 50 2 = some [0] := by
  have h := C3_single_chunk Strategy.scene 120 50 [] [10] []
    (by norm_num) (by norm_num)
  exact ⟨h.1 0, h.2 (by norm_num) 0⟩

/-- C4: with `duration = 300`, `target = 120`, window `±20` and silence
intervals `(115, 116, 1)` and `(235, 237, 2)`, the silence planner returns
exactly `[0, 115.5, 236]` (for every sufficient fuel). -/
theorem C4_concrete_scenario (fuel : ℕ) :
    find_cut_points_silence 120 [⟨115, 116, 1⟩, ⟨235, 237, 2⟩] 300 (fuel + 3) =
      some [0, 115.5, 236] := by
  have h3 : windowLoop 300
      (silenceCandidate 120 300 [⟨115, 116, 1⟩, ⟨235, 237, 2⟩]) 0 3 =
      some [115.5, 236] := by
    norm_num [windowLoop, silenceCandidate, bestSilence, updateBest,
      search_window_start, search_window_end]
  unfold find_cut_points_silence
  rw [windowLoop_mono 300 _ 3 (fuel + 3) 0 _ (by omega) h3]
  norm_num

/-- C5 counterexample: with `target = 10`, `duration = 100` and the single
scene mark `0`, the mark qualifies (window `[-10, 30]`) and is the unique
minimum-distance mark, yet the emitted candidate is the fallback `10`, which
is not a scene mark: `if best_scene:` treats the mark `0.0` as absent. -/
theorem C5_counterexample :
    qualifyingScene 10 100 [0] 0 = [0] ∧
    sceneCandidate 10 100 [0] 0 = 10 ∧
    (10 : ℚ) ∉ ([0] : List ℚ) := by
  refine ⟨?_, ?_, by norm_num⟩
  · norm_num [qualifyingScene, search_window_start, search_window_end]
  · norm_num [sceneCandidate, bestScene, updateBestScene,
      search_window_start, search_window_end]

/-- C5 amended: at every step the scene planner selects, among the marks in
`[t + target - 20, min (t + target + 20) duration]`, the one of minimum
absolute distance to `t + target` with first-encountered tie-break, and
emits it as the cut point — except that a selected mark equal to `0` is
treated like "no qualifying mark" by the implementation's truthiness test,
so the fallback `min (t + target) duration` fires for it exactly as when no
mark qualifies.  Every consecutive emitted cut is a fallback step or equals
an input scene mark exactly. -/
theorem C5_scene_selection (target duration : ℚ) (scenes : List ℚ) :
    (∀ t : ℚ,
      (qualifyingScene target duration scenes t = [] ∧
        sceneCandidate target duration scenes t = min (t + target) duration) ∨
      ∃ b, IsFirstMinDist (t + target) (qualifyingScene target duration scenes t) b ∧
        ((b ≠ 0 ∧ sceneCandidate target duration scenes t = b) ∨
          (b = 0 ∧ sceneCandidate target duration scenes t =
            min (t + target) duration))) ∧
    ∀ (fuel : ℕ) (cps : List ℚ),
      find_cut_points_scene target scenes duration fuel = some cps →
      List.Chain' (fun p c =>
        c = min (p + target) duration ∨ c ∈ scenes) cps := by
  constructor
  · exact sceneCandidate_spec target duration scenes
  · intro fuel cps h
    cases scenes with
    | nil =>
        obtain ⟨-, -, -, hc⟩ := fixedLoop_spec target duration fuel 0 cps h
        refine hc.imp fun a b hab => Or.inl ?_
        rw [hab.1, min_eq_left (le_of_lt (hab.1 ▸ hab.2))]
    | cons s rest =>
        simp only [find_cut_points_scene, List.isEmpty_cons,
          Bool.false_eq_true, if_false] at h
        rcases Option.map_eq_some'.mp h with ⟨l, hl, hcons⟩
        rw [← hcons]
        show List.Chain _ 0 l
        refine (windowLoop_chain duration _ fuel 0 l hl).imp ?_
        rintro p c ⟨hc, -, -⟩
        rcases sceneCandidate_spec target duration (s :: rest) p with
          ⟨-, hq⟩ | ⟨b, hfb, hcase⟩
        · left
          rw [hc, hq]
        · rcases hcase with ⟨-, hq⟩ | ⟨-, hq⟩
          · right
            obtain ⟨l1, l2, hd, -, -⟩ := hfb
            have hbmem : b ∈ qualifyingScene target duration (s :: rest) p := by
              rw [hd]
              exact List.mem_append_right _ (List.mem_cons_self _ _)
            rw [qualifyingScene, List.mem_filter] at hbmem
            rw [hc, hq]
            exact hbmem.1
          · left
            rw [hc, hq]

/-- C5 witness: a concrete scene run (`duration = 300`, `target = 120`,
single mark `110`) and the pairwise property instantiated on its output
`[0, 110, 230]` (`110` is a mark, `230` and the break at `300` are fallback
steps). -/
theorem C5_witness :
    find_cut_points_scene 120 [110] 300 5 = some [0, 110, 230] ∧
    List.Chain' (fun p c => c = min (p + 120) 300 ∨ c ∈ ([110] : List ℚ))
      [0, 110, 230] := by
  have heval : find_cut_points_scene 120 [110] 300 5 = some [0, 110, 230] := by
    norm_num [find_cut_points_scene, windowLoop, sceneCandidate, bestScene,
      updateBestScene, search_window_start, search_window_end]
  exact ⟨heval, (C5_scene_selection 120 300 [110]).2 5 _ heval⟩

/-- C6 counterexample: for the crop transform with source `1920x1080` and
output `1080x1920` the builder computes `target_width = int(1080*1080/1920)
= int(607.5) = 607`, not `608` as the claim states (`x_offset = 656` does
hold). -/
theorem C6_counterexample :
    get_vertical_filter VerticalFormat.crop 1920 1080 1080 1920 =
      some (VerticalFilter.cropFilter 607 1080 656 1080 1920) ∧
    (607 : ℤ) ≠ 608 := by
  exact ⟨by decide, by decide⟩

/-- C6 amended: with source `1920x1080` and output `1080x1920` the crop
branch computes `target_width = 607` (floor of `607.5`) and
`x_offset = (1920 - 607) // 2 = 656`. -/
theorem C6_crop_geometry :
    get_vertical_filter VerticalFormat.crop 1920 1080 1080 1920 =
      some (VerticalFilter.cropFilter 607 1080 656 1080 1920) := by decide

/-- C7: with a source of width `500` (narrower than the computed target
width `607`), the crop branch does not surface any error: it silently
returns a crop descriptor with `target_width = 607 > 500` and negative
`x_offset = (500 - 607) // 2 = -54`.  No guard exists in
`get_vertical_filter` or `create_chunk`. -/
theorem C7_no_geometry_guard :
    get_vertical_filter VerticalFormat.crop 500 1080 1080 1920 =
      some (VerticalFilter.cropFilter 607 1080 (-54) 1080 1920) ∧
    (500 : ℤ) < 607 := by
  exact ⟨by decide, by decide⟩

/-- C8: no validation of `target_duration ≤ 0` exists anywhere: with
`target = 0` and `duration = 1` the fixed planner's `while` loop never
terminates (the loop result is `none` for every fuel), and the silence
planner happily returns the cut sequence `[0]` — neither fails at planning
start as the claim requires. -/
theorem C8_no_target_validation :
    (∀ fuel : ℕ, find_cut_points_fixed 0 1 fuel = none) ∧
    find_cut_points_silence 0 [] 1 5 = some [0] := by
  constructor
  · intro fuel
    exact fixedLoop_none_of_nonpos 0 1 (le_refl 0) fuel 0 (by norm_num)
  · norm_num [find_cut_points_silence, windowLoop, silenceCandidate,
      bestSilence, search_window_start, search_window_end]

/-- C9: `create_chunk` stream-copies exactly when the re-encode flag is off
and the vertical format is `none`; any non-`none` vertical format forces the
transcode arm. -/
theorem C9_codec_policy (re_encode : Bool) (fmt : VerticalFormat) :
    (chunkCodecPolicy re_encode fmt = CodecPolicy.copy ↔
      re_encode = false ∧ fmt = VerticalFormat.none) ∧
    (fmt ≠ VerticalFormat.none →
      chunkCodecPolicy re_encode fmt = CodecPolicy.transcode) := by
  cases re_encode <;> cases fmt <;> decide

/-- C9 witness: the crop format forces a transcode even with the re-encode
flag off, and the `none` format with the flag off stream-copies. -/
theorem C9_witness :
    chunkCodecPolicy false VerticalFormat.crop = CodecPolicy.transcode ∧
    chunkCodecPolicy false VerticalFormat.none = CodecPolicy.copy := by
  refine ⟨(C9_codec_policy false VerticalFormat.crop).2 (by decide), ?_⟩
  exact (C9_codec_policy false VerticalFormat.none).1.mpr ⟨rfl, rfl⟩

/-- C10: when scene detection yields no marks, the scene planner returns
exactly the fixed planner's output for that duration (the whole-file
fallback of lines 217-219). -/
theorem C10_scene_empty_is_fixed (target duration : ℚ) (fuel : ℕ) :
    find_cut_points_scene target [] duration fuel =
      find_cut_points_fixed target duration fuel := rfl
